import Mathlib

/-!
Shallow embedding of the cross-reference detection and relationship-graph
maintenance core of the knowledge-vault server (source: the MCP server's
`findCrossReferences`, the `update` tool's cross-reference application loop,
and the `createRelation` tool's relation upsert).

Modelling conventions:
* JS strings are Lean `String`s (all inputs of interest are ASCII, where
  Lean's `Char.toLower` agrees with JS `toLowerCase` and the UTF-16
  `length` agrees with the codepoint count).
* JS numbers carrying confidences and strengths are modelled as `ℚ`; the
  values the code manipulates (0.5, 0.7, 0.9, 1.0 and products with 0.7)
  are the exact rationals the arithmetic denotes.
* The SQLite tables are association lists in row (rowid) order; `db.get`
  is `List.find?`, an `INSERT` appends, an `UPDATE ... WHERE` maps over
  the matching rows, and `INSERT ... ON CONFLICT ... DO UPDATE` is the
  explicit `upsertEdge` below.
* The regexes the detector builds are embedded as executable character
  matchers: the fixed markdown-link regex and, for topic names made of
  literal regex characters, the `\b<name>\b` and `c₁\s*c₂\s*…` patterns.
  Because the code splices the raw name into `new RegExp`, construction
  can throw; pattern validity is modelled by `jsRegexOk`, a checker for the
  fragment of the JS RegExp grammar these spliced patterns can exercise
  (escapes, the quantifiers `*` `+` `?` with their lazy forms, groups,
  character classes, alternation); the detector returns `Except` and
  errors exactly where `new RegExp` would throw.
-/

namespace KnowledgeVault

/-- JS `\w` word character: `[A-Za-z0-9_]`. -/
def isWordChar (c : Char) : Bool :=
  ('a' ≤ c && c ≤ 'z') || ('A' ≤ c && c ≤ 'Z') || ('0' ≤ c && c ≤ '9') || c == '_'

/-- JS `\s` whitespace class (WhiteSpace ∪ LineTerminator). -/
def isJsWs (c : Char) : Bool :=
  let n := c.toNat
  n == 0x20 || n == 0x09 || n == 0x0a || n == 0x0d || n == 0x0b || n == 0x0c ||
  n == 0xa0 || n == 0x1680 || (0x2000 <= n && n <= 0x200a) ||
  n == 0x2028 || n == 0x2029 || n == 0x202f || n == 0x205f || n == 0x3000 || n == 0xfeff

/-- Case-insensitive character comparison, as the regex `i` flag canonicalizes
    characters (ASCII-faithful). -/
def charEqCI (c d : Char) : Bool := c.toLower == d.toLower

/-- JS `String.prototype.toLowerCase` (ASCII-faithful). -/
def strLower (s : String) : String := ⟨s.data.map Char.toLower⟩

/-- `name.toLowerCase() === linkText.toLowerCase()`. -/
def lcEq (a b : String) : Bool := strLower a == strLower b

/-- Characters kept by the slug regex `[^a-z0-9]` complement (after lowering). -/
def isSlugChar (c : Char) : Bool := ('a' ≤ c && c ≤ 'z') || ('0' ≤ c && c ≤ '9')

/-- `replace(/[^a-z0-9]+/g, '-')`: each maximal run of non-slug characters
    becomes a single `'-'`. The flag records being inside such a run. -/
def slugAux : Bool → List Char → List Char
  | _, [] => []
  | inRun, c :: rest =>
    if isSlugChar c then c :: slugAux false rest
    else if inRun then slugAux true rest
    else '-' :: slugAux true rest

/-- `topicToSlug`: `topic.toLowerCase().replace(/[^a-z0-9]+/g, '-')`. -/
def topicToSlug (topic : String) : String := ⟨slugAux false (strLower topic).data⟩

/-- Insert a name into a list already sorted by descending length, keeping the
    inserted (originally earlier) element ahead of equal-length ones, so that
    `sortByLenDesc` is the stable descending sort the JS
    `sort((a, b) => b.length - a.length)` performs. -/
def insertByLen (x : String) : List String → List String
  | [] => [x]
  | y :: ys => if x.length < y.length then y :: insertByLen x ys else x :: y :: ys

/-- `topicNames.sort((a, b) => b.length - a.length)` (stable). -/
def sortByLenDesc (l : List String) : List String := l.foldr insertByLen []

/-- One attempt of the markdown-link regex `\[([^\]]+)\]\([^)]+\)` at the
    current position: on success returns the captured label and the number of
    characters of `rest` (the input minus its leading `'['`) the whole match
    consumed. The greedy `[^\]]+` runs to the first `']'`; both the label and
    the target must be nonempty. -/
def linkAt (s : List Char) : Option (List Char × Nat) :=
  match s with
  | '[' :: rest =>
    let label := rest.takeWhile (fun c => c ≠ ']')
    if label.length = 0 then none
    else
      match rest.drop label.length with
      | ']' :: '(' :: rest3 =>
        let tgt := rest3.takeWhile (fun c => c ≠ ')')
        if tgt.length = 0 then none
        else
          match rest3.drop tgt.length with
          | ')' :: _ => some (label, label.length + tgt.length + 3)
          | _ => none
      | _ => none
  | _ => none

/-- The `while ((match = markdownLinkRegex.exec(content)) !== null)` loop with
    the `g` flag: successive non-overlapping matches, the search resuming after
    each match (or one character further on failure). The fuel argument only
    bounds the iteration — every step consumes at least one character, so
    `s.length` fuel is never exhausted. -/
def extractLabelsAux : Nat → List Char → List (List Char)
  | 0, _ => []
  | _, [] => []
  | fuel + 1, c :: rest =>
    match linkAt (c :: rest) with
    | some (lab, k) => lab :: extractLabelsAux fuel (rest.drop k)
    | none => extractLabelsAux fuel rest

/-- All labels of markdown links in the content, in match order. -/
def extractLabels (s : List Char) : List (List Char) := extractLabelsAux s.length s

/-- Case-insensitive prefix test: the name's characters literally begin the
    given content suffix (regex `i`-flag semantics for literal characters). -/
def ciBegins : List Char → List Char → Bool
  | [], _ => true
  | _ :: _, [] => false
  | c :: cs, d :: ds => charEqCI c d && ciBegins cs ds

/-- Word-ness of an optional character; beyond-string counts as non-word. -/
def wordOpt : Option Char → Bool
  | none => false
  | some c => isWordChar c

/-- The regex assertion `\b` between an (optional) left and right character. -/
def bAt (l r : Option Char) : Bool := wordOpt l != wordOpt r

/-- Match `\b<name>\b` exactly at the start of `s`, where `left` is the
    character immediately before this position (none at string start). -/
def exactAt (name s : List Char) (left : Option Char) : Bool :=
  ciBegins name s &&
  bAt left s.head? &&
  bAt (match (s.take name.length).getLast? with
       | some c => some c
       | none => left)
    (s.drop name.length).head?

/-- `exactRegex.test(content)`: `\b<name>\b` matches at some position. -/
def exactSearch (name : List Char) : Option Char → List Char → Bool
  | left, [] => exactAt name [] left
  | left, d :: s' => exactAt name (d :: s') left || exactSearch name (some d) s'

/-- `new RegExp("\\b" + name + "\\b", "gi").test(content)` for names made of
    literal regex characters. -/
def exactTest (name content : String) : Bool := exactSearch name.data none content.data

/-- Match the fuzzy pattern `c₁\s*c₂\s*…\s*cₙ` (the name's characters joined
    by `\s*`) against a content suffix: each content character either matches
    the next pending name character or, once the first name character has been
    consumed (`allowWs`), is whitespace swallowed by a `\s*`. The disjunction
    realizes the regex engine's backtracking. -/
def fuzzyStep : List Char → Bool → List Char → Bool
  | [], _, _ => true
  | _ :: _, _, [] => false
  | c :: cs, allowWs, d :: s =>
    (charEqCI c d && fuzzyStep cs true s) ||
    (allowWs && isJsWs d && fuzzyStep (c :: cs) true s)

/-- `fuzzyRegex.test(content)`: the fuzzy pattern matches at some position. -/
def fuzzySearch (cs : List Char) : List Char → Bool
  | [] => fuzzyStep cs false []
  | d :: s' => fuzzyStep cs false (d :: s') || fuzzySearch cs s'

/-- `new RegExp(name.split('').join('\\s*'), 'gi').test(content)` for names
    made of literal regex characters. -/
def fuzzyTest (name content : String) : Bool := fuzzySearch name.data content.data

/-- Validity of a pattern for `new RegExp`, on the grammar fragment the
    detector's spliced patterns can exercise. State: `inClass` while inside
    `[...]`; `st` is 0 after nothing quantifiable (start, `|`, `(`, an
    assertion), 1 after a quantifiable atom, 2 after a quantifier (where only
    the lazy `?` may follow); `depth` counts open groups. A quantifier with
    nothing to repeat, an unmatched `(` or `)`, an unterminated class or a
    trailing `\` is invalid — exactly where `new RegExp` throws. -/
def jsOkAux : List Char → Bool → Nat → Nat → Bool
  | [], inClass, _, depth => !inClass && depth == 0
  | '\\' :: rest, inClass, _, depth =>
    match rest with
    | [] => false
    | e :: rest' =>
      if inClass then jsOkAux rest' true 1 depth
      else if e == 'b' || e == 'B' then jsOkAux rest' false 0 depth
      else jsOkAux rest' false 1 depth
  | c :: rest, true, st, depth =>
    if c == ']' then jsOkAux rest false 1 depth else jsOkAux rest true st depth
  | '(' :: rest, false, _, depth => jsOkAux rest false 0 (depth + 1)
  | ')' :: rest, false, _, depth =>
    if depth == 0 then false else jsOkAux rest false 1 (depth - 1)
  | '|' :: rest, false, _, depth => jsOkAux rest false 0 depth
  | '[' :: rest, false, _, depth => jsOkAux rest true 0 depth
  | '*' :: rest, false, st, depth =>
    if st == 1 then jsOkAux rest false 2 depth else false
  | '+' :: rest, false, st, depth =>
    if st == 1 then jsOkAux rest false 2 depth else false
  | '?' :: rest, false, st, depth =>
    if st == 1 then jsOkAux rest false 2 depth
    else if st == 2 then jsOkAux rest false 0 depth
    else false
  | '^' :: rest, false, _, depth => jsOkAux rest false 0 depth
  | '$' :: rest, false, _, depth => jsOkAux rest false 0 depth
  | _ :: rest, false, _, depth => jsOkAux rest false 1 depth

/-- A pattern string is accepted by `new RegExp`. -/
def jsRegexOk (p : List Char) : Bool := jsOkAux p false 0 0

/-- The characters of the pattern `` `\b${name}\b` ``. -/
def exactPatternChars (name : String) : List Char :=
  '\\' :: 'b' :: (name.data ++ ['\\', 'b'])

/-- The characters of the pattern `name.split('').join('\\s*')`. -/
def fuzzyPatternChars : List Char → List Char
  | [] => []
  | [c] => [c]
  | c :: rest => c :: '\\' :: 's' :: '*' :: fuzzyPatternChars rest

/-- `Map.prototype.set`: replace the value at an existing key in place,
    otherwise append (insertion order preserved). -/
def mapSet (m : List (String × ℚ)) (k : String) (v : ℚ) : List (String × ℚ) :=
  if m.any (fun p => p.1 == k) then
    m.map (fun p => if p.1 == k then (k, v) else p)
  else m ++ [(k, v)]

/-- `Map.prototype.get` (as an option). -/
def lookupM (m : List (String × ℚ)) (k : String) : Option ℚ :=
  (m.find? (fun p => p.1 == k)).map (·.2)

/-- The markdown-link pass: for each link label, `topicNames.find(...)` over
    the (length-sorted) names compared lowercased; a hit is recorded at
    confidence 1.0. -/
def linkPass (names : List String) (labels : List String)
    (m : List (String × ℚ)) : List (String × ℚ) :=
  labels.foldl
    (fun acc lab =>
      match names.find? (fun n => lcEq n lab) with
      | some n => mapSet acc n 1
      | none => acc)
    m

/-- The error `new RegExp` raises on an invalid pattern. -/
def regexErrorMsg : String := "SyntaxError: Invalid regular expression"

/-- The plain-text loop `for (const name of topicNames)`: build `\b<name>\b`
    (throwing if invalid), on a hit record 0.9 and continue; otherwise build
    the fuzzy pattern (throwing if invalid) and on a hit record 0.7. Both
    `mentions.set` calls are unconditional — they do not consult any
    confidence already recorded for the name. -/
def plainLoop (content : String) : List String → List (String × ℚ) →
    Except String (List (String × ℚ))
  | [], m => .ok m
  | name :: rest, m =>
    if jsRegexOk (exactPatternChars name) then
      if exactTest name content then plainLoop content rest (mapSet m name (9/10))
      else if jsRegexOk (fuzzyPatternChars name.data) then
        if fuzzyTest name content then plainLoop content rest (mapSet m name (7/10))
        else plainLoop content rest m
      else .error regexErrorMsg
    else .error regexErrorMsg

/-- `findCrossReferences(content)`: the `SELECT name FROM topics` snapshot is
    the `allTopicNames` argument; sort by descending length, run the
    markdown-link pass, then the exact/fuzzy loop; return the mention map's
    entries in insertion order. -/
def findCrossReferences (content : String) (allTopicNames : List String) :
    Except String (List (String × ℚ)) :=
  let topicNames := sortByLenDesc allTopicNames
  let m := linkPass topicNames ((extractLabels content.data).map List.asString) []
  plainLoop content topicNames m

/-- A row of `topics` (timestamps, which no claim observes, are omitted). -/
structure TopicRow where
  id : Nat
  name : String
  slug : String
  category_id : Option Nat
  content : String
  content_type : String
  is_inactive : Bool
deriving Repr, DecidableEq

/-- A row of `topic_relations` (the surrogate `id` column, which no claim
    observes, is omitted; identity is the UNIQUE key triple). -/
structure RelRow where
  source_id : Nat
  target_id : Nat
  relationship_type : String
  relationship_strength : ℚ
deriving Repr, DecidableEq

/-- A row of `topic_history` (timestamp omitted). -/
structure HistoryRow where
  topic_id : Nat
  content : String
  changed_by : String
  change_comment : String
deriving Repr, DecidableEq

/-- The SQLite database: tables in rowid order plus AUTOINCREMENT counters. -/
structure VaultDb where
  topics : List TopicRow
  categories : List (Nat × String)
  relations : List RelRow
  history : List HistoryRow
  nextTopicId : Nat
  nextCategoryId : Nat
deriving Repr, DecidableEq

/-- The empty database right after `initializeDb` (AUTOINCREMENT starts at 1). -/
def emptyDb : VaultDb := ⟨[], [], [], [], 1, 1⟩

/-- The UNIQUE key `(source_id, target_id, relationship_type)` of an edge. -/
def relKeyMatches (e : RelRow) (src tgt : Nat) (ty : String) : Bool :=
  e.source_id == src && e.target_id == tgt && e.relationship_type == ty

/-- `INSERT INTO topic_relations ... ON CONFLICT (source_id, target_id,
    relationship_type) DO UPDATE SET relationship_strength =
    excluded.relationship_strength`: replace the strength of the row with the
    conflicting key, otherwise append a new row. -/
def upsertEdge (rels : List RelRow) (src tgt : Nat) (ty : String) (s : ℚ) :
    List RelRow :=
  if rels.any (fun e => relKeyMatches e src tgt ty) then
    rels.map (fun e =>
      if relKeyMatches e src tgt ty then { e with relationship_strength := s } else e)
  else rels ++ [⟨src, tgt, ty, s⟩]

/-- The strength stored at a key (first matching row). -/
def lookupEdge (rels : List RelRow) (src tgt : Nat) (ty : String) : Option ℚ :=
  (rels.find? (fun e => relKeyMatches e src tgt ty)).map (·.relationship_strength)

/-- The number of rows carrying a key. -/
def countKey (rels : List RelRow) (src tgt : Nat) (ty : String) : Nat :=
  rels.countP (fun e => relKeyMatches e src tgt ty)

/-- The `UNIQUE(source_id, target_id, relationship_type)` table constraint:
    no two rows share a key. -/
def KeysNodup (rels : List RelRow) : Prop :=
  List.Pairwise
    (fun a b => relKeyMatches a b.source_id b.target_id b.relationship_type = false) rels

/-- Every stored strength lies in [0, 1]. -/
def EdgesOk (rels : List RelRow) : Prop :=
  ∀ e ∈ rels, 0 ≤ e.relationship_strength ∧ e.relationship_strength ≤ 1

/-- JS `comment || defaultText` (both `undefined` and `""` are falsy). -/
def jsOrDefault (c : Option String) (d : String) : String :=
  match c with
  | some s => if s == "" then d else s
  | none => d

/-- The `update` tool's category step: look the category name up, inserting a
    fresh row when absent; returns the resulting `category_id` (none when no
    category was supplied) and the possibly extended database. -/
def resolveCategory (db : VaultDb) (category : Option String) : Option Nat × VaultDb :=
  match category with
  | none => (none, db)
  | some cat =>
    match db.categories.find? (fun p => p.2 == cat) with
    | some p => (some p.1, db)
    | none =>
      (some db.nextCategoryId,
       { db with
           categories := db.categories ++ [(db.nextCategoryId, cat)],
           nextCategoryId := db.nextCategoryId + 1 })

/-- The content-write part of the `update` tool (everything before the
    cross-reference block): resolve the category, find the topic by
    `slug = ? AND category_id IS ?`; if it exists, snapshot its old content to
    history and overwrite content and content type; otherwise insert a new
    topic row and record the initial version. Returns the database and the
    written topic's id. -/
def applyWrite (db : VaultDb) (topic content contentType : String)
    (category : Option String) (user : String) (comment : Option String) :
    VaultDb × Nat :=
  let slug := topicToSlug topic
  let rc := resolveCategory db category
  let categoryId := rc.1
  let db1 := rc.2
  match db1.topics.find? (fun t => t.slug == slug && t.category_id == categoryId) with
  | some existing =>
    let db2 : VaultDb := { db1 with
      history := db1.history ++
        [⟨existing.id, existing.content, user, jsOrDefault comment "Update via API"⟩] }
    let db3 : VaultDb := { db2 with
      topics := db2.topics.map (fun t =>
        if t.id == existing.id then
          { t with content := content, content_type := contentType }
        else t) }
    (db3, existing.id)
  | none =>
    let tid := db1.nextTopicId
    let db2 : VaultDb := { db1 with
      topics := db1.topics ++ [⟨tid, topic, slug, categoryId, content, contentType, false⟩],
      nextTopicId := tid + 1 }
    let db3 : VaultDb := { db2 with
      history := db2.history ++
        [⟨tid, content, user, jsOrDefault comment "Initial creation"⟩] }
    (db3, tid)

/-- The body of `for (const {name, confidence} of mentions)`: slugify the
    mentioned name, resolve it by `SELECT id FROM topics WHERE slug = ?`
    (first row, no category filter); when it resolves and is not the updated
    topic itself, upsert the forward `references` edge at the mention's
    confidence and the reverse `referenced_by` edge at `confidence * 0.7`;
    otherwise leave the relations untouched. -/
def applyMention (topics : List TopicRow) (topicId : Nat) (rels : List RelRow)
    (mention : String × ℚ) : List RelRow :=
  let mentionedSlug := topicToSlug mention.1
  match topics.find? (fun t => t.slug == mentionedSlug) with
  | some m =>
    if m.id ≠ topicId then
      upsertEdge (upsertEdge rels topicId m.id "references" mention.2)
        m.id topicId "referenced_by" (mention.2 * (7/10))
    else rels
  | none => rels

/-- The `update` tool: perform the content write, then — only when
    `detectReferences` is set — scan the (post-write) topic-name snapshot for
    mentions with `findCrossReferences` and fold the mention loop over the
    relations; a detector exception fails the whole call. -/
def update (db : VaultDb) (topic content contentType : String)
    (category : Option String) (user : String) (comment : Option String)
    (detectReferences : Bool) : Except String VaultDb :=
  let wr := applyWrite db topic content contentType category user comment
  let db1 := wr.1
  let topicId := wr.2
  if detectReferences then
    match findCrossReferences content (db1.topics.map (·.name)) with
    | .ok mentions =>
      .ok { db1 with
        relations := mentions.foldl (applyMention db1.topics topicId) db1.relations }
    | .error e => .error e
  else .ok db1

/-- The `createRelation` tool body: resolve both topics by slug; when both
    exist, upsert the edge with the caller's type and strength; otherwise
    report "not found" leaving the database unchanged. -/
def createRelation (db : VaultDb) (sourceTopic targetTopic relationType : String)
    (strength : ℚ) : VaultDb :=
  let sourceSlug := topicToSlug sourceTopic
  let targetSlug := topicToSlug targetTopic
  match db.topics.find? (fun t => t.slug == sourceSlug),
        db.topics.find? (fun t => t.slug == targetSlug) with
  | some s, some t =>
    { db with relations := upsertEdge db.relations s.id t.id relationType strength }
  | _, _ => db

/-- The confidences the detector can record. -/
def ConfOk (p : String × ℚ) : Prop := p.2 = 7/10 ∨ p.2 = 9/10 ∨ p.2 = 1

/-- The zod schema default for `strength` (`z.number().min(0).max(1).default(0.5)`). -/
def defaultRelationStrength : ℚ := 1/2

/-- The `createRelation` tool as callers reach it: the zod schema
    `z.number().min(0).max(1)` rejects a strength outside [0, 1] before the
    handler runs (`none` = request rejected at validation). -/
def createRelationTool (db : VaultDb) (sourceTopic targetTopic relationType : String)
    (strength : ℚ) : Option VaultDb :=
  if 0 ≤ strength ∧ strength ≤ 1 then
    some (createRelation db sourceTopic targetTopic relationType strength)
  else none

/-! ### Generic list lemmas -/

theorem find?_map_comm {α : Type} (f : α → α) (p : α → Bool)
    (hp : ∀ a, p (f a) = p a) (l : List α) :
    (l.map f).find? p = (l.find? p).map f := by
  induction l with
  | nil => rfl
  | cons a l ih =>
    by_cases h : p a
    · rw [List.map_cons, List.find?_cons_of_pos _ (by rw [hp]; exact h),
        List.find?_cons_of_pos _ h]
      rfl
    · rw [List.map_cons,
        List.find?_cons_of_neg _ (by rw [hp]; exact h),
        List.find?_cons_of_neg _ h]
      exact ih

theorem find?_append_last {α : Type} (p : α → Bool) (l : List α) (x : α)
    (hx : p x = false) : (l ++ [x]).find? p = l.find? p := by
  induction l with
  | nil =>
    rw [List.nil_append, List.find?_cons_of_neg _ (by simp [hx])]
  | cons a l ih =>
    by_cases h : p a
    · rw [List.cons_append, List.find?_cons_of_pos _ h, List.find?_cons_of_pos _ h]
    · rw [List.cons_append, List.find?_cons_of_neg _ h, List.find?_cons_of_neg _ h]
      exact ih

theorem find?_append_of_none {α : Type} (p : α → Bool) (l l2 : List α)
    (h : l.find? p = none) : (l ++ l2).find? p = l2.find? p := by
  induction l with
  | nil => rw [List.nil_append]
  | cons a l ih =>
    by_cases ha : p a
    · rw [List.find?_cons_of_pos _ ha] at h
      exact absurd h (by simp)
    · rw [List.find?_cons_of_neg _ ha] at h
      rw [List.cons_append, List.find?_cons_of_neg _ ha]
      exact ih h

theorem find?_of_any {α : Type} (p : α → Bool) (l : List α)
    (h : l.any p = true) : ∃ q, l.find? p = some q ∧ p q = true := by
  cases hf : l.find? p with
  | none =>
    rw [List.find?_eq_none] at hf
    rw [List.any_eq_true] at h
    rcases h with ⟨x, hx, hpx⟩
    exact absurd hpx (hf x hx)
  | some q => exact ⟨q, rfl, List.find?_some hf⟩

theorem find?_none_of_not_any {α : Type} (p : α → Bool) (l : List α)
    (h : ¬ l.any p = true) : l.find? p = none := by
  rw [List.find?_eq_none]
  intro x hx hpx
  exact h (List.any_eq_true.mpr ⟨x, hx, hpx⟩)

/-! ### Helper lemmas: the mention map -/

theorem lookupM_mapSet_self (m : List (String × ℚ)) (k : String) (v : ℚ) :
    lookupM (mapSet m k v) k = some v := by
  unfold mapSet lookupM
  by_cases h : m.any (fun p => p.1 == k)
  · rw [if_pos h, find?_map_comm (fun p => if p.1 == k then (k, v) else p)
      (fun p => p.1 == k) ?hp]
    case hp =>
      intro a
      by_cases ha : a.1 == k
      · simp [ha]
      · simp [ha]
    rcases find?_of_any _ _ h with ⟨q, hq, hpq⟩
    rw [hq]
    have hqk : q.1 = k := by simpa using hpq
    simp [hpq, hqk]
  · rw [if_neg h, find?_append_of_none _ _ _ (find?_none_of_not_any _ _ h),
      List.find?_cons_of_pos _ (by simp)]
    rfl

theorem lookupM_mapSet_other (m : List (String × ℚ)) (k k' : String) (v : ℚ)
    (hne : k' ≠ k) : lookupM (mapSet m k v) k' = lookupM m k' := by
  have hkk : (k == k') = false := by
    simp only [beq_eq_false_iff_ne, ne_eq]
    exact fun he => hne he.symm
  unfold mapSet lookupM
  by_cases h : m.any (fun p => p.1 == k)
  · rw [if_pos h, find?_map_comm (fun p => if p.1 == k then (k, v) else p)
      (fun p => p.1 == k') ?hp]
    case hp =>
      intro a
      by_cases ha : a.1 == k
      · have : a.1 = k := by simpa using ha
        simp [ha, this, hkk]
      · simp [ha]
    cases hf : m.find? (fun p => p.1 == k') with
    | none => rfl
    | some q =>
      have hpq := List.find?_some hf
      have h1 : q.1 = k' := by simpa using hpq
      have h2 : (q.1 == k) = false := by
        rw [h1]
        simp only [beq_eq_false_iff_ne, ne_eq]
        exact hne
      have h3 : ¬ (q.1 = k) := by
        rw [h1]
        exact hne
      simp [h2, h3]
  · rw [if_neg h, find?_append_last]
    simp [hkk]

theorem mem_mapSet (m : List (String × ℚ)) (k : String) (v : ℚ) (p : String × ℚ)
    (hp : p ∈ mapSet m k v) : p ∈ m ∨ p = (k, v) := by
  unfold mapSet at hp
  by_cases h : m.any (fun q => q.1 == k)
  · rw [if_pos h] at hp
    rcases List.mem_map.mp hp with ⟨q, hq, he⟩
    by_cases hqk : q.1 == k
    · rw [if_pos hqk] at he
      exact Or.inr he.symm
    · rw [if_neg hqk] at he
      exact Or.inl (he ▸ hq)
  · rw [if_neg h] at hp
    simpa using hp

theorem keys_mapSet_of_any (m : List (String × ℚ)) (k : String) (v : ℚ)
    (h : m.any (fun p => p.1 == k) = true) :
    (mapSet m k v).map Prod.fst = m.map Prod.fst := by
  unfold mapSet
  rw [if_pos h, List.map_map]
  apply List.map_congr_left
  intro p _
  by_cases hp : p.1 == k
  · have : p.1 = k := by simpa using hp
    simp [Function.comp, hp, this]
  · simp [Function.comp, hp]

theorem keys_nodup_mapSet (m : List (String × ℚ)) (k : String) (v : ℚ)
    (h : (m.map Prod.fst).Nodup) : ((mapSet m k v).map Prod.fst).Nodup := by
  by_cases hany : m.any (fun p => p.1 == k)
  · rw [keys_mapSet_of_any m k v hany]
    exact h
  · unfold mapSet
    rw [if_neg hany, List.map_append]
    rw [List.nodup_append]
    refine ⟨h, List.nodup_singleton k, ?_⟩
    intro a ha hb
    simp only [List.map_cons, List.map_nil, List.mem_singleton] at hb
    subst hb
    rcases List.mem_map.mp ha with ⟨q, hq, he⟩
    exact hany (List.any_eq_true.mpr ⟨q, hq, by simp [he]⟩)

theorem lookupM_eq_of_mem (m : List (String × ℚ)) (q : String × ℚ)
    (hnd : (m.map Prod.fst).Nodup) (hq : q ∈ m) : lookupM m q.1 = some q.2 := by
  unfold lookupM
  induction m with
  | nil => simp at hq
  | cons p rest ih =>
    simp only [List.map_cons, List.nodup_cons] at hnd
    rcases List.mem_cons.mp hq with h | h
    · subst h
      rw [List.find?_cons_of_pos _ (by simp)]
      rfl
    · have hne : (p.1 == q.1) = false := by
        simp only [beq_eq_false_iff_ne, ne_eq]
        intro he
        exact hnd.1 (he ▸ List.mem_map.mpr ⟨q, h, rfl⟩)
      rw [List.find?_cons_of_neg _ (by simp [hne])]
      exact ih hnd.2 h

theorem mem_of_lookupM (m : List (String × ℚ)) (k : String) (v : ℚ)
    (h : lookupM m k = some v) : (k, v) ∈ m := by
  unfold lookupM at h
  cases hf : m.find? (fun p => p.1 == k) with
  | none => rw [hf] at h; simp at h
  | some q =>
    rw [hf] at h
    have h1 : q.1 = k := by simpa using List.find?_some hf
    have h2 : q.2 = v := by simpa using h
    have : q = (k, v) := by
      calc q = (q.1, q.2) := rfl
        _ = (k, v) := by rw [h1, h2]
    exact this ▸ List.mem_of_find?_eq_some hf

/-! ### Helper lemmas: the edge upsert -/

theorem relKeyMatches_strength (e : RelRow) (src tgt : Nat) (ty : String) (s : ℚ) :
    relKeyMatches { e with relationship_strength := s } src tgt ty =
      relKeyMatches e src tgt ty := rfl

theorem relKeyMatches_self (src tgt : Nat) (ty : String) (s : ℚ) :
    relKeyMatches ⟨src, tgt, ty, s⟩ src tgt ty = true := by
  simp [relKeyMatches]

theorem relKeyMatches_updFn (src tgt : Nat) (ty : String) (s : ℚ)
    (src' tgt' : Nat) (ty' : String) (e : RelRow) :
    relKeyMatches
      (if relKeyMatches e src tgt ty then { e with relationship_strength := s } else e)
      src' tgt' ty' = relKeyMatches e src' tgt' ty' := by
  by_cases hk : relKeyMatches e src tgt ty
  · rw [if_pos hk, relKeyMatches_strength]
  · rw [if_neg hk]

theorem lookupEdge_upsertEdge_self (rels : List RelRow) (src tgt : Nat) (ty : String)
    (s : ℚ) : lookupEdge (upsertEdge rels src tgt ty s) src tgt ty = some s := by
  unfold upsertEdge lookupEdge
  by_cases h : rels.any (fun e => relKeyMatches e src tgt ty)
  · rw [if_pos h, find?_map_comm _ _ (relKeyMatches_updFn src tgt ty s src tgt ty)]
    rcases find?_of_any _ _ h with ⟨q, hq, hpq⟩
    rw [hq]
    simp [hpq]
  · rw [if_neg h, find?_append_of_none _ _ _ (find?_none_of_not_any _ _ h)]
    simp [List.find?_cons, relKeyMatches_self src tgt ty s]

theorem key_excl (src tgt : Nat) (ty : String) (src' tgt' : Nat) (ty' : String)
    (hne : ¬(src' = src ∧ tgt' = tgt ∧ ty' = ty)) (e : RelRow)
    (he : relKeyMatches e src tgt ty = true) :
    relKeyMatches e src' tgt' ty' = false := by
  simp only [relKeyMatches, Bool.and_eq_true, beq_iff_eq] at he
  by_contra hc
  simp only [Bool.not_eq_false, relKeyMatches, Bool.and_eq_true, beq_iff_eq] at hc
  exact hne ⟨hc.1.1.symm.trans he.1.1, hc.1.2.symm.trans he.1.2, hc.2.symm.trans he.2⟩

theorem lookupEdge_upsertEdge_other (rels : List RelRow) (src tgt : Nat) (ty : String)
    (s : ℚ) (src' tgt' : Nat) (ty' : String)
    (hne : ¬(src' = src ∧ tgt' = tgt ∧ ty' = ty)) :
    lookupEdge (upsertEdge rels src tgt ty s) src' tgt' ty' =
      lookupEdge rels src' tgt' ty' := by
  unfold upsertEdge lookupEdge
  by_cases h : rels.any (fun e => relKeyMatches e src tgt ty)
  · rw [if_pos h, find?_map_comm _ _ (relKeyMatches_updFn src tgt ty s src' tgt' ty')]
    cases hf : rels.find? (fun e => relKeyMatches e src' tgt' ty') with
    | none => rfl
    | some q =>
      have hpq := List.find?_some hf
      have : relKeyMatches q src tgt ty = false := by
        by_contra hc
        simp only [Bool.not_eq_false] at hc
        have := key_excl src tgt ty src' tgt' ty' hne q hc
        rw [this] at hpq
        exact Bool.false_ne_true hpq
      simp [this]
  · rw [if_neg h, find?_append_last]
    exact key_excl src tgt ty src' tgt' ty' hne _ (relKeyMatches_self src tgt ty s)

theorem mem_upsertEdge (rels : List RelRow) (src tgt : Nat) (ty : String) (s : ℚ)
    (e : RelRow) (he : e ∈ upsertEdge rels src tgt ty s) :
    e ∈ rels ∨ (e.source_id = src ∧ e.target_id = tgt ∧
      e.relationship_type = ty ∧ e.relationship_strength = s) := by
  unfold upsertEdge at he
  by_cases h : rels.any (fun x => relKeyMatches x src tgt ty)
  · rw [if_pos h] at he
    rcases List.mem_map.mp he with ⟨q, hq, heq⟩
    by_cases hk : relKeyMatches q src tgt ty
    · rw [if_pos hk] at heq
      right
      subst heq
      simp only [relKeyMatches, Bool.and_eq_true, beq_iff_eq] at hk
      exact ⟨hk.1.1, hk.1.2, hk.2, rfl⟩
    · rw [if_neg hk] at heq
      exact Or.inl (heq ▸ hq)
  · rw [if_neg h] at he
    rcases List.mem_append.mp he with he | he
    · exact Or.inl he
    · right
      rcases List.mem_singleton.mp he with rfl
      exact ⟨rfl, rfl, rfl, rfl⟩

theorem upsertEdge_upsertEdge (rels : List RelRow) (src tgt : Nat) (ty : String)
    (s s' : ℚ) :
    upsertEdge (upsertEdge rels src tgt ty s) src tgt ty s' =
      upsertEdge rels src tgt ty s' := by
  unfold upsertEdge
  by_cases h : rels.any (fun e => relKeyMatches e src tgt ty)
  · rw [if_pos h]
    have hany : (rels.map (fun e =>
        if relKeyMatches e src tgt ty then { e with relationship_strength := s } else e)).any
        (fun e => relKeyMatches e src tgt ty) = true := by
      rw [List.any_eq_true] at h ⊢
      rcases h with ⟨e, he, hk⟩
      refine ⟨if relKeyMatches e src tgt ty then { e with relationship_strength := s } else e,
        List.mem_map.mpr ⟨e, he, rfl⟩, ?_⟩
      rw [relKeyMatches_updFn]
      exact hk
    rw [if_pos hany, if_pos h, List.map_map]
    apply List.map_congr_left
    intro e _
    by_cases hk : relKeyMatches e src tgt ty
    · simp only [Function.comp_apply, if_pos hk]
      rw [if_pos (by rw [relKeyMatches_strength]; exact hk)]
    · simp only [Function.comp_apply, if_neg hk, if_neg hk]
  · rw [if_neg h]
    have hany : (rels ++ [(⟨src, tgt, ty, s⟩ : RelRow)]).any
        (fun e => relKeyMatches e src tgt ty) = true := by
      rw [List.any_eq_true]
      exact ⟨⟨src, tgt, ty, s⟩, by simp, relKeyMatches_self src tgt ty s⟩
    rw [if_pos hany, if_neg h, List.map_append]
    have h1 : rels.map (fun e =>
        if relKeyMatches e src tgt ty then { e with relationship_strength := s' } else e) =
        rels := by
      conv_rhs => rw [← List.map_id rels]
      apply List.map_congr_left
      intro e hee
      rw [if_neg]
      · rfl
      · intro hc
        exact h (List.any_eq_true.mpr ⟨e, hee, hc⟩)
    rw [h1]
    simp [relKeyMatches_self src tgt ty s]

theorem countKey_le_one (rels : List RelRow) (src tgt : Nat) (ty : String)
    (hnd : KeysNodup rels) : countKey rels src tgt ty ≤ 1 := by
  unfold countKey
  induction rels with
  | nil => simp
  | cons e rest ih =>
    rw [KeysNodup, List.pairwise_cons] at hnd
    by_cases he : relKeyMatches e src tgt ty
    · have h0 : rest.countP (fun x => relKeyMatches x src tgt ty) = 0 := by
        rw [List.countP_eq_zero]
        intro x hx hc
        have h1 := hnd.1 x hx
        simp only [relKeyMatches, Bool.and_eq_true, beq_iff_eq] at he hc
        simp only [relKeyMatches, Bool.and_eq_false_iff, beq_eq_false_iff_ne, ne_eq] at h1
        rcases h1 with (h1 | h1) | h1
        · exact h1 (he.1.1.trans hc.1.1.symm)
        · exact h1 (he.1.2.trans hc.1.2.symm)
        · exact h1 (he.2.trans hc.2.symm)
      simp [List.countP_cons, he, h0]
    · simp only [List.countP_cons, he, cond_false, if_neg, Bool.false_eq_true,
        ite_false, Nat.add_zero]
      exact ih (hnd.2)

theorem countKey_upsertEdge (rels : List RelRow) (src tgt : Nat) (ty : String) (s : ℚ)
    (hnd : KeysNodup rels) : countKey (upsertEdge rels src tgt ty s) src tgt ty = 1 := by
  unfold upsertEdge
  by_cases h : rels.any (fun e => relKeyMatches e src tgt ty)
  · rw [if_pos h]
    have heq : countKey (rels.map (fun e =>
        if relKeyMatches e src tgt ty then { e with relationship_strength := s } else e))
        src tgt ty = countKey rels src tgt ty := by
      unfold countKey
      rw [List.countP_map]
      apply List.countP_congr
      intro e _
      simp only [Function.comp_apply]
      rw [relKeyMatches_updFn]
    have hge : 1 ≤ countKey rels src tgt ty := by
      rw [List.any_eq_true] at h
      rcases h with ⟨e, he, hk⟩
      unfold countKey
      exact List.countP_pos_iff.mpr ⟨e, he, hk⟩
    have hle := countKey_le_one rels src tgt ty hnd
    unfold countKey at heq hge hle ⊢
    omega
  · rw [if_neg h]
    unfold countKey
    rw [List.countP_append]
    have h0 : rels.countP (fun e => relKeyMatches e src tgt ty) = 0 := by
      rw [List.countP_eq_zero]
      intro x hx hc
      exact h (List.any_eq_true.mpr ⟨x, hx, hc⟩)
    rw [h0]
    simp [relKeyMatches_self src tgt ty s]

/-! ### Helper lemmas: sorting the name index -/

theorem mem_insertByLen (x y : String) (l : List String) :
    y ∈ insertByLen x l ↔ y = x ∨ y ∈ l := by
  induction l with
  | nil => simp [insertByLen]
  | cons z zs ih =>
    unfold insertByLen
    by_cases h : x.length < z.length
    · rw [if_pos h]
      simp only [List.mem_cons, ih]
      tauto
    · rw [if_neg h]
      simp only [List.mem_cons]

theorem pairwise_insertByLen (x : String) (l : List String)
    (h : List.Pairwise (fun a b => b.length ≤ a.length) l) :
    List.Pairwise (fun a b => b.length ≤ a.length) (insertByLen x l) := by
  induction l with
  | nil => simp [insertByLen]
  | cons y ys ih =>
    rw [List.pairwise_cons] at h
    unfold insertByLen
    by_cases hlt : x.length < y.length
    · rw [if_pos hlt, List.pairwise_cons]
      constructor
      · intro b hb
        rcases (mem_insertByLen x b ys).mp hb with hb | hb
        · exact hb ▸ Nat.le_of_lt hlt
        · exact h.1 b hb
      · exact ih h.2
    · rw [if_neg hlt, List.pairwise_cons]
      constructor
      · intro b hb
        rcases List.mem_cons.mp hb with hb | hb
        · exact hb ▸ Nat.le_of_not_lt hlt
        · exact Nat.le_trans (h.1 b hb) (Nat.le_of_not_lt hlt)
      · rw [List.pairwise_cons]
        exact h

theorem sortByLenDesc_pairwise (l : List String) :
    List.Pairwise (fun a b => b.length ≤ a.length) (sortByLenDesc l) := by
  induction l with
  | nil => simp [sortByLenDesc]
  | cons a l ih => exact pairwise_insertByLen a (sortByLenDesc l) ih

theorem mem_sortByLenDesc (l : List String) (x : String) :
    x ∈ sortByLenDesc l ↔ x ∈ l := by
  induction l with
  | nil => simp [sortByLenDesc]
  | cons a l ih =>
    show x ∈ insertByLen a (sortByLenDesc l) ↔ _
    rw [mem_insertByLen, ih, List.mem_cons]

/-! ### Helper lemmas: the detection passes -/

theorem linkPass_values (names : List String) (labels : List String) :
    ∀ m, (∀ p ∈ m, ConfOk p) → ∀ p ∈ linkPass names labels m, ConfOk p := by
  induction labels with
  | nil => intro m hm; exact hm
  | cons lab rest ih =>
    intro m hm
    show ∀ p ∈ linkPass names rest _, ConfOk p
    apply ih
    cases hf : names.find? (fun n => lcEq n lab) with
    | none => simpa [linkPass, hf] using hm
    | some n =>
      simp only [linkPass, hf]
      intro p hp
      rcases mem_mapSet m n 1 p hp with hp | hp
      · exact hm p hp
      · right; right; rw [hp]

theorem linkPass_keys (names : List String) (labels : List String) :
    ∀ m, (m.map Prod.fst).Nodup → ((linkPass names labels m).map Prod.fst).Nodup := by
  induction labels with
  | nil => intro m hm; exact hm
  | cons lab rest ih =>
    intro m hm
    apply ih
    cases hf : names.find? (fun n => lcEq n lab) with
    | none => simpa [linkPass, hf] using hm
    | some n =>
      simp only [linkPass, hf]
      exact keys_nodup_mapSet m n 1 hm

theorem plainLoop_ok_shape (content : String) (n : String) (rest : List String)
    (m : List (String × ℚ)) (m' : List (String × ℚ))
    (hok : plainLoop content (n :: rest) m = .ok m') :
    jsRegexOk (exactPatternChars n) = true ∧
    ((exactTest n content = true ∧ plainLoop content rest (mapSet m n (9/10)) = .ok m') ∨
     (exactTest n content = false ∧ jsRegexOk (fuzzyPatternChars n.data) = true ∧
       ((fuzzyTest n content = true ∧ plainLoop content rest (mapSet m n (7/10)) = .ok m') ∨
        (fuzzyTest n content = false ∧ plainLoop content rest m = .ok m')))) := by
  by_cases h1 : jsRegexOk (exactPatternChars n)
  · refine ⟨h1, ?_⟩
    by_cases h2 : exactTest n content
    · left
      refine ⟨h2, ?_⟩
      simpa [plainLoop, h1, h2] using hok
    · right
      by_cases h3 : jsRegexOk (fuzzyPatternChars n.data)
      · refine ⟨by simpa using h2, h3, ?_⟩
        by_cases h4 : fuzzyTest n content
        · left
          refine ⟨h4, ?_⟩
          simpa [plainLoop, h1, h2, h3, h4] using hok
        · right
          refine ⟨by simpa using h4, ?_⟩
          simpa [plainLoop, h1, h2, h3, h4] using hok
      · exfalso
        simp [plainLoop, h1, h2, h3] at hok
  · exfalso
    simp [plainLoop, h1] at hok

theorem plainLoop_values (content : String) :
    ∀ (names : List String) (m m' : List (String × ℚ)),
      plainLoop content names m = .ok m' →
      (∀ p ∈ m, ConfOk p) → ∀ p ∈ m', ConfOk p := by
  intro names
  induction names with
  | nil =>
    intro m m' hok hm
    simp only [plainLoop] at hok
    cases hok
    exact hm
  | cons n rest ih =>
    intro m m' hok hm
    rcases plainLoop_ok_shape content n rest m m' hok with ⟨_, hc⟩
    have hset : ∀ v : ℚ, (v = 7/10 ∨ v = 9/10 ∨ v = 1) →
        ∀ p ∈ mapSet m n v, ConfOk p := by
      intro v hv p hp
      rcases mem_mapSet m n v p hp with hp | hp
      · exact hm p hp
      · rw [hp]
        exact hv
    rcases hc with ⟨_, hrec⟩ | ⟨_, _, ⟨_, hrec⟩ | ⟨_, hrec⟩⟩
    · exact ih _ _ hrec (hset (9/10) (Or.inr (Or.inl rfl)))
    · exact ih _ _ hrec (hset (7/10) (Or.inl rfl))
    · exact ih _ _ hrec hm

theorem plainLoop_keys (content : String) :
    ∀ (names : List String) (m m' : List (String × ℚ)),
      plainLoop content names m = .ok m' →
      (m.map Prod.fst).Nodup → (m'.map Prod.fst).Nodup := by
  intro names
  induction names with
  | nil =>
    intro m m' hok hm
    simp only [plainLoop] at hok
    cases hok
    exact hm
  | cons n rest ih =>
    intro m m' hok hm
    rcases plainLoop_ok_shape content n rest m m' hok with ⟨_, hc⟩
    rcases hc with ⟨_, hrec⟩ | ⟨_, _, ⟨_, hrec⟩ | ⟨_, hrec⟩⟩
    · exact ih _ _ hrec (keys_nodup_mapSet m n _ hm)
    · exact ih _ _ hrec (keys_nodup_mapSet m n _ hm)
    · exact ih _ _ hrec hm

theorem plainLoop_lookup (content : String) (name : String)
    (hex : exactTest name content = false) (hfz : fuzzyTest name content = true) :
    ∀ (names : List String) (m m' : List (String × ℚ)),
      plainLoop content names m = .ok m' →
      (name ∈ names ∨ lookupM m name = some (7/10)) →
      lookupM m' name = some (7/10) := by
  intro names
  induction names with
  | nil =>
    intro m m' hok hd
    simp only [plainLoop] at hok
    cases hok
    rcases hd with hd | hd
    · simp at hd
    · exact hd
  | cons n rest ih =>
    intro m m' hok hd
    rcases plainLoop_ok_shape content n rest m m' hok with ⟨_, hc⟩
    rcases hc with ⟨hexn, hrec⟩ | ⟨hexn, _, ⟨hfzn, hrec⟩ | ⟨hfzn, hrec⟩⟩
    · have hne : name ≠ n := by
        intro he
        rw [he] at hex
        rw [hex] at hexn
        exact Bool.false_ne_true hexn
      apply ih _ _ hrec
      rcases hd with hd | hd
      · rcases List.mem_cons.mp hd with hd | hd
        · exact absurd hd hne
        · exact Or.inl hd
      · exact Or.inr (by rw [lookupM_mapSet_other m n name _ hne]; exact hd)
    · by_cases hne : name = n
      · subst hne
        apply ih _ _ hrec
        exact Or.inr (lookupM_mapSet_self m name (7/10))
      · apply ih _ _ hrec
        rcases hd with hd | hd
        · rcases List.mem_cons.mp hd with hd | hd
          · exact absurd hd hne
          · exact Or.inl hd
        · exact Or.inr (by rw [lookupM_mapSet_other m n name _ hne]; exact hd)
    · have hne : name ≠ n := by
        intro he
        rw [he] at hfz
        rw [hfz] at hfzn
        exact Bool.false_ne_true hfzn.symm
      apply ih _ _ hrec
      rcases hd with hd | hd
      · rcases List.mem_cons.mp hd with hd | hd
        · exact absurd hd hne
        · exact Or.inl hd
      · exact Or.inr hd

theorem findCrossReferences_values (content : String) (names : List String)
    (l : List (String × ℚ)) (h : findCrossReferences content names = .ok l) :
    ∀ p ∈ l, ConfOk p := by
  unfold findCrossReferences at h
  apply plainLoop_values content _ _ _ h
  apply linkPass_values
  intro p hp
  simp at hp

theorem findCrossReferences_keys_nodup (content : String) (names : List String)
    (l : List (String × ℚ)) (h : findCrossReferences content names = .ok l) :
    (l.map Prod.fst).Nodup := by
  unfold findCrossReferences at h
  apply plainLoop_keys content _ _ _ h
  apply linkPass_keys
  simp

/-! ### Helper lemmas: the write path -/

theorem resolveCategory_preserves (db : VaultDb) (category : Option String) :
    (resolveCategory db category).2.topics = db.topics ∧
    (resolveCategory db category).2.relations = db.relations ∧
    (resolveCategory db category).2.history = db.history ∧
    (resolveCategory db category).2.nextTopicId = db.nextTopicId := by
  unfold resolveCategory
  cases category with
  | none => exact ⟨rfl, rfl, rfl, rfl⟩
  | some cat =>
    cases h : db.categories.find? (fun p => p.2 == cat) with
    | none => simp [h]
    | some p => simp [h]

theorem applyWrite_relations (db : VaultDb) (topic content contentType : String)
    (category : Option String) (user : String) (comment : Option String) :
    (applyWrite db topic content contentType category user comment).1.relations =
      db.relations := by
  have hrc := (resolveCategory_preserves db category).2.1
  unfold applyWrite
  cases hf : (resolveCategory db category).2.topics.find?
      (fun t => t.slug == topicToSlug topic && t.category_id == (resolveCategory db category).1) with
  | none =>
    simp only [hf]
    simpa using hrc
  | some existing =>
    simp only [hf]
    simpa using hrc

theorem applyWrite_history_len (db : VaultDb) (topic content contentType : String)
    (category : Option String) (user : String) (comment : Option String) :
    (applyWrite db topic content contentType category user comment).1.history.length =
      db.history.length + 1 := by
  have hrc := (resolveCategory_preserves db category).2.2.1
  unfold applyWrite
  cases hf : (resolveCategory db category).2.topics.find?
      (fun t => t.slug == topicToSlug topic && t.category_id == (resolveCategory db category).1) with
  | none =>
    simp only [hf]
    simp [hrc]
  | some existing =>
    simp only [hf]
    simp [hrc]

theorem find?_topics_update_content (content contentType : String) (tid : Nat) :
    ∀ l : List TopicRow, (∃ t ∈ l, t.id = tid) →
    ((l.map (fun t => if t.id == tid then
        { t with content := content, content_type := contentType } else t)).find?
      (fun t => t.id == tid)).map (·.content) = some content := by
  intro l hex
  induction l with
  | nil =>
    rcases hex with ⟨t, ht, _⟩
    simp at ht
  | cons t rest ih =>
    by_cases htid : t.id == tid
    · have h1 : (({ t with content := content, content_type := contentType } : TopicRow).id
        == tid) = true := htid
      rw [List.map_cons, if_pos htid]
      simp [List.find?_cons, h1]
    · have hfalse : (t.id == tid) = false := by simpa using htid
      rw [List.map_cons, if_neg htid]
      simp only [List.find?_cons, hfalse, cond_false]
      apply ih
      rcases hex with ⟨u, hu, hut⟩
      rcases List.mem_cons.mp hu with hu | hu
      · exact absurd (beq_iff_eq.mpr (hu ▸ hut)) htid
      · exact ⟨u, hu, hut⟩

theorem applyWrite_content (db : VaultDb) (topic content contentType : String)
    (category : Option String) (user : String) (comment : Option String)
    (hfresh : ∀ t ∈ db.topics, t.id < db.nextTopicId) :
    (((applyWrite db topic content contentType category user comment).1.topics.find?
        (fun t => t.id ==
          (applyWrite db topic content contentType category user comment).2)).map
      (·.content)) = some content := by
  have hpt := (resolveCategory_preserves db category).1
  have hpn := (resolveCategory_preserves db category).2.2.2
  unfold applyWrite
  cases hf : (resolveCategory db category).2.topics.find?
      (fun t => t.slug == topicToSlug topic &&
        t.category_id == (resolveCategory db category).1) with
  | some existing =>
    simp only [hf]
    apply find?_topics_update_content
    exact ⟨existing, List.mem_of_find?_eq_some hf, rfl⟩
  | none =>
    simp only [hf]
    rw [find?_append_of_none]
    · rw [List.find?_cons_of_pos _ (by simp)]
      rfl
    · rw [List.find?_eq_none]
      intro t ht hc
      rw [hpt] at ht
      have hlt := hfresh t ht
      have : t.id = db.nextTopicId := by
        rw [← hpn]
        simpa using hc
      omega

theorem applyMention_unresolved (topics : List TopicRow) (topicId : Nat)
    (rels : List RelRow) (nm : String) (c : ℚ)
    (hres : topics.find? (fun t => t.slug == topicToSlug nm) = none) :
    applyMention topics topicId rels (nm, c) = rels := by
  simp only [applyMention, hres]

theorem applyMention_self (topics : List TopicRow) (topicId : Nat)
    (rels : List RelRow) (nm : String) (c : ℚ) (M : TopicRow)
    (hres : topics.find? (fun t => t.slug == topicToSlug nm) = some M)
    (hid : M.id = topicId) :
    applyMention topics topicId rels (nm, c) = rels := by
  simp only [applyMention, hres]
  rw [if_neg (not_not_intro hid)]

theorem applyMention_resolved (topics : List TopicRow) (topicId : Nat)
    (rels : List RelRow) (nm : String) (c : ℚ) (M : TopicRow)
    (hres : topics.find? (fun t => t.slug == topicToSlug nm) = some M)
    (hne : M.id ≠ topicId) :
    applyMention topics topicId rels (nm, c) =
      upsertEdge (upsertEdge rels topicId M.id "references" c)
        M.id topicId "referenced_by" (c * (7/10)) := by
  simp only [applyMention, hres]
  rw [if_pos hne]

theorem mem_applyMention (topics : List TopicRow) (tid : Nat) (rels : List RelRow)
    (p : String × ℚ) (e : RelRow) (he : e ∈ applyMention topics tid rels p) :
    e ∈ rels ∨
    (e.relationship_type = "references" ∧ e.relationship_strength = p.2) ∨
    (e.relationship_type = "referenced_by" ∧
      e.relationship_strength = p.2 * (7/10)) := by
  simp only [applyMention] at he
  cases hf : topics.find? (fun t => t.slug == topicToSlug p.1) with
  | none =>
    simp only [hf] at he
    exact Or.inl he
  | some m =>
    simp only [hf] at he
    by_cases hne : m.id ≠ tid
    · rw [if_pos hne] at he
      rcases mem_upsertEdge _ _ _ _ _ _ he with he2 | he2
      · rcases mem_upsertEdge _ _ _ _ _ _ he2 with he3 | he3
        · exact Or.inl he3
        · exact Or.inr (Or.inl ⟨he3.2.2.1, he3.2.2.2⟩)
      · exact Or.inr (Or.inr ⟨he2.2.2.1, he2.2.2.2⟩)
    · rw [if_neg hne] at he
      exact Or.inl he

theorem applyMention_no_self_loop (topics : List TopicRow) (tid : Nat)
    (rels : List RelRow) (p : String × ℚ) (e : RelRow)
    (he : e ∈ applyMention topics tid rels p)
    (hself : e.source_id = e.target_id) : e ∈ rels := by
  simp only [applyMention] at he
  cases hf : topics.find? (fun t => t.slug == topicToSlug p.1) with
  | none =>
    simp only [hf] at he
    exact he
  | some m =>
    simp only [hf] at he
    by_cases hne : m.id ≠ tid
    · rw [if_pos hne] at he
      rcases mem_upsertEdge _ _ _ _ _ _ he with he2 | he2
      · rcases mem_upsertEdge _ _ _ _ _ _ he2 with he3 | he3
        · exact he3
        · exact absurd (he3.2.1.symm.trans (hself.symm.trans he3.1)) hne
      · exact absurd (he2.1.symm.trans (hself.trans he2.2.1)) hne
    · rw [if_neg hne] at he
      exact he

theorem applyMention_edges (topics : List TopicRow) (tid : Nat) (rels : List RelRow)
    (p : String × ℚ) (hp : ConfOk p) (h : EdgesOk rels) :
    EdgesOk (applyMention topics tid rels p) := by
  intro e he
  rcases mem_applyMention topics tid rels p e he with he | ⟨_, hs⟩ | ⟨_, hs⟩
  · exact h e he
  · rw [hs]
    rcases hp with hp | hp | hp <;> rw [hp] <;> norm_num
  · rw [hs]
    rcases hp with hp | hp | hp <;> rw [hp] <;> norm_num

theorem foldl_applyMention_edges (topics : List TopicRow) (tid : Nat) :
    ∀ (ms : List (String × ℚ)) (rels : List RelRow),
      (∀ p ∈ ms, ConfOk p) → EdgesOk rels →
      EdgesOk (ms.foldl (applyMention topics tid) rels) := by
  intro ms
  induction ms with
  | nil =>
    intro rels _ h
    exact h
  | cons p rest ih =>
    intro rels hms h
    rw [List.foldl_cons]
    exact ih _ (fun q hq => hms q (List.mem_cons_of_mem p hq))
      (applyMention_edges topics tid rels p (hms p (List.mem_cons_self p rest)) h)

theorem upsertEdge_edges (rels : List RelRow) (src tgt : Nat) (ty : String) (s : ℚ)
    (h : EdgesOk rels) (hs0 : 0 ≤ s) (hs1 : s ≤ 1) :
    EdgesOk (upsertEdge rels src tgt ty s) := by
  intro e he
  rcases mem_upsertEdge _ _ _ _ _ _ he with he | he
  · exact h e he
  · rw [he.2.2.2]
    exact ⟨hs0, hs1⟩

theorem update_detect_ok (db : VaultDb) (topic content contentType : String)
    (category : Option String) (user : String) (comment : Option String)
    (ms : List (String × ℚ))
    (h : findCrossReferences content
      ((applyWrite db topic content contentType category user comment).1.topics.map
        (·.name)) = .ok ms) :
    update db topic content contentType category user comment true =
      .ok { (applyWrite db topic content contentType category user comment).1 with
        relations := ms.foldl
          (applyMention
            (applyWrite db topic content contentType category user comment).1.topics
            (applyWrite db topic content contentType category user comment).2)
          (applyWrite db topic content contentType category user comment).1.relations } := by
  simp only [update, if_true, h]

/-! ### Claim theorems -/

/-- C1 (code evaluation at the failing input): on content containing the
    markdown link construct with label TypeScript and the single known topic
    name TypeScript, the detector returns confidence 0.9, not the 1.0 the
    link pass recorded — the exact-mention pass unconditionally overwrites
    the previously recorded higher confidence, so per-name confidence is not
    monotonic within one scan. -/
theorem c1_link_confidence_overwritten :
    findCrossReferences "[TypeScript](https://www.typescriptlang.org/)" ["TypeScript"] =
      .ok [("TypeScript", 9/10)] := rfl

/-- C4: with known names React and React Native (in either input order) and
    content containing the standalone word React and no markdown link,
    detection returns exactly the React mention at 0.9; React Native is
    matched by no pass. -/
theorem c4_react_word_match :
    findCrossReferences "I use React daily" ["React", "React Native"] =
      .ok [("React", 9/10)] ∧
    findCrossReferences "I use React daily" ["React Native", "React"] =
      .ok [("React", 9/10)] := ⟨rfl, rfl⟩

/-- C9 (counterexample): detection is not total — the known name C++ is
    spliced unescaped into the exact-mention RegExp, whose pattern is an
    invalid regular expression, so the detector throws instead of testing a
    literal occurrence. -/
theorem c9_counterexample :
    findCrossReferences "I like C++" ["C++"] = .error regexErrorMsg := rfl

/-- C9 (amended): the exact-mention and fuzzy-mention passes splice the raw
    name into a RegExp, so a known name whose spliced pattern is an invalid
    regular expression (such as C++) makes the detector throw during pattern
    construction, for every content string. -/
theorem c9_throws_on_invalid_name (content : String) :
    findCrossReferences content ["C++"] = .error regexErrorMsg := rfl

/-- C5 (counterexample): the name index is not de-duplicated
    case-insensitively — with the case-variant duplicate names Foo and FOO
    both known, detection on content containing the word returns two entries
    in the same case-insensitive equivalence class. -/
theorem c5_counterexample :
    findCrossReferences "foo" ["Foo", "FOO"] = .ok [("Foo", 9/10), ("FOO", 9/10)] ∧
    strLower "Foo" = strLower "FOO" ∧
    List.countP (fun p => strLower p.1 == strLower "Foo")
      [("Foo", (9:ℚ)/10), ("FOO", (9:ℚ)/10)] = 2 := ⟨rfl, rfl, rfl⟩

/-- C5 (amended): before matching begins the name index is only sorted by
    descending length (stably; no case-insensitive de-duplication), and
    detection returns at most one (name, confidence) entry per exact name
    string — case-variant names may each yield their own entry. -/
theorem c5_sorted_no_ci_dedup :
    (∀ names : List String,
      List.Pairwise (fun a b => b.length ≤ a.length) (sortByLenDesc names)) ∧
    (∀ (content : String) (names : List String) (l : List (String × ℚ)),
      findCrossReferences content names = .ok l → (l.map Prod.fst).Nodup) :=
  ⟨sortByLenDesc_pairwise,
   fun content names l h => findCrossReferences_keys_nodup content names l h⟩

/-- C5 witness: the amended claim at concrete input — the sorted index for
    the Foo/FOO pair, and distinct result names on content foo. -/
theorem c5_sorted_no_ci_dedup_witness :
    List.Pairwise (fun a b => b.length ≤ a.length) (sortByLenDesc ["Foo", "FOO"]) ∧
    ([("Foo", (9:ℚ)/10), ("FOO", (9:ℚ)/10)].map Prod.fst).Nodup :=
  ⟨c5_sorted_no_ci_dedup.1 ["Foo", "FOO"],
   c5_sorted_no_ci_dedup.2 "foo" ["Foo", "FOO"] [("Foo", (9:ℚ)/10), ("FOO", (9:ℚ)/10)] rfl⟩

/-- C8: for every known name and content on which the markdown-link pass
    records nothing for that name, the exact whole-word pass fails and the
    fuzzy letter-spaced pattern matches, detection records that name at
    confidence exactly 0.7 (and no other confidence). -/
theorem c8_fuzzy_letter_spaced (content name : String) (names : List String)
    (l : List (String × ℚ))
    (hok : findCrossReferences content names = .ok l)
    (hmem : name ∈ names)
    (_hlink : lookupM (linkPass (sortByLenDesc names)
      ((extractLabels content.data).map List.asString) []) name = none)
    (hex : exactTest name content = false)
    (hfz : fuzzyTest name content = true) :
    (name, (7:ℚ)/10) ∈ l ∧ ∀ q ∈ l, q.1 = name → q.2 = 7/10 := by
  have hmem' : name ∈ sortByLenDesc names := (mem_sortByLenDesc names name).mpr hmem
  have hok' : plainLoop content (sortByLenDesc names)
      (linkPass (sortByLenDesc names)
        ((extractLabels content.data).map List.asString) []) = .ok l := hok
  have hlook := plainLoop_lookup content name hex hfz _ _ _ hok' (Or.inl hmem')
  have hnd := findCrossReferences_keys_nodup content names l hok
  constructor
  · exact mem_of_lookupM l name (7/10) hlook
  · intro q hq hq1
    have hm := lookupM_eq_of_mem l q hnd hq
    rw [hq1, hlook] at hm
    exact (Option.some.inj hm).symm

/-- C8 witness: letter-spaced TypeScript content with the known name
    TypeScript satisfies all the hypotheses and yields the 0.7 mention. -/
theorem c8_fuzzy_letter_spaced_witness :
    findCrossReferences "T y p e S c r i p t" ["TypeScript"] =
      .ok [("TypeScript", (7:ℚ)/10)] ∧
    "TypeScript" ∈ ["TypeScript"] ∧
    lookupM (linkPass (sortByLenDesc ["TypeScript"])
      ((extractLabels "T y p e S c r i p t".data).map List.asString) []) "TypeScript" = none ∧
    exactTest "TypeScript" "T y p e S c r i p t" = false ∧
    fuzzyTest "TypeScript" "T y p e S c r i p t" = true ∧
    ("TypeScript", (7:ℚ)/10) ∈ [("TypeScript", (7:ℚ)/10)] :=
  ⟨rfl, List.mem_singleton.mpr rfl, rfl, rfl, rfl,
   (c8_fuzzy_letter_spaced "T y p e S c r i p t" "TypeScript" ["TypeScript"]
      [("TypeScript", (7:ℚ)/10)] rfl (List.mem_singleton.mpr rfl) rfl rfl rfl).1⟩

/-- C3: the relation upsert is idempotent on the (source, target, type) key —
    upserting the same arguments twice equals upserting once, re-upserting
    with a new strength equals a single upsert of the new strength, and on a
    store satisfying the UNIQUE constraint the upsert leaves exactly one edge
    for the triple, carrying the given strength. -/
theorem c3_upsert_idempotent (rels : List RelRow) (src tgt : Nat)
    (ty : String) (s s' : ℚ) :
    upsertEdge (upsertEdge rels src tgt ty s) src tgt ty s = upsertEdge rels src tgt ty s ∧
    upsertEdge (upsertEdge rels src tgt ty s) src tgt ty s' = upsertEdge rels src tgt ty s' ∧
    (KeysNodup rels →
      countKey (upsertEdge rels src tgt ty s) src tgt ty = 1 ∧
      lookupEdge (upsertEdge rels src tgt ty s) src tgt ty = some s) :=
  ⟨upsertEdge_upsertEdge rels src tgt ty s s,
   upsertEdge_upsertEdge rels src tgt ty s s',
   fun hnd => ⟨countKey_upsertEdge rels src tgt ty s hnd,
     lookupEdge_upsertEdge_self rels src tgt ty s⟩⟩

/-- C3 witness: a one-edge store satisfying the UNIQUE constraint, upserted
    at its own key, keeps exactly one edge with the upserted strength. -/
theorem c3_upsert_idempotent_witness :
    KeysNodup [⟨1, 2, "references", (1:ℚ)⟩] ∧
    countKey (upsertEdge [⟨1, 2, "references", (1:ℚ)⟩] 1 2 "references" 1)
      1 2 "references" = 1 ∧
    lookupEdge (upsertEdge [⟨1, 2, "references", (1:ℚ)⟩] 1 2 "references" 1)
      1 2 "references" = some 1 :=
  ⟨by simp [KeysNodup],
   ((c3_upsert_idempotent [⟨1, 2, "references", (1:ℚ)⟩] 1 2 "references" 1 1).2.2
     (by simp [KeysNodup])).1,
   ((c3_upsert_idempotent [⟨1, 2, "references", (1:ℚ)⟩] 1 2 "references" 1 1).2.2
     (by simp [KeysNodup])).2⟩

/-- C2: a mention at confidence c that resolves to a distinct topic M during
    a write to topic T upserts exactly two edges — a references edge from T
    to M with strength exactly c and a referenced_by edge from M to T with
    strength exactly c * 0.7 — and leaves the strength at every other key
    unchanged. -/
theorem c2_forward_reverse_edges (topics : List TopicRow) (topicId : Nat)
    (rels : List RelRow) (name : String) (c : ℚ) (M : TopicRow)
    (hres : topics.find? (fun t => t.slug == topicToSlug name) = some M)
    (hne : M.id ≠ topicId) :
    lookupEdge (applyMention topics topicId rels (name, c)) topicId M.id "references" =
      some c ∧
    lookupEdge (applyMention topics topicId rels (name, c)) M.id topicId "referenced_by" =
      some (c * (7/10)) ∧
    ∀ (s t : Nat) (ty : String),
      ¬(s = topicId ∧ t = M.id ∧ ty = "references") →
      ¬(s = M.id ∧ t = topicId ∧ ty = "referenced_by") →
      lookupEdge (applyMention topics topicId rels (name, c)) s t ty =
        lookupEdge rels s t ty := by
  rw [applyMention_resolved topics topicId rels name c M hres hne]
  refine ⟨?_, ?_, ?_⟩
  · rw [lookupEdge_upsertEdge_other _ M.id topicId "referenced_by" _ topicId M.id
      "references" (fun hx => absurd hx.2.2 (by decide))]
    exact lookupEdge_upsertEdge_self rels topicId M.id "references" c
  · exact lookupEdge_upsertEdge_self _ M.id topicId "referenced_by" (c * (7/10))
  · intro s t ty h1 h2
    rw [lookupEdge_upsertEdge_other _ M.id topicId "referenced_by" _ s t ty h2,
      lookupEdge_upsertEdge_other _ topicId M.id "references" _ s t ty h1]

/-- C2 witness: a mention of Bar at confidence 1 from topic 1 resolving to
    topic 2 creates the forward edge at 1 and the reverse edge at 1 * 0.7. -/
theorem c2_forward_reverse_edges_witness :
    List.find? (fun t => t.slug == topicToSlug "Bar")
      ([⟨2, "Bar", "bar", none, "x", "markdown", false⟩] : List TopicRow) =
      some (⟨2, "Bar", "bar", none, "x", "markdown", false⟩ : TopicRow) ∧
    (2 : Nat) ≠ 1 ∧
    lookupEdge (applyMention ([⟨2, "Bar", "bar", none, "x", "markdown", false⟩] :
      List TopicRow) 1 [] ("Bar", 1)) 1 2 "references" = some 1 ∧
    lookupEdge (applyMention ([⟨2, "Bar", "bar", none, "x", "markdown", false⟩] :
      List TopicRow) 1 [] ("Bar", 1)) 2 1 "referenced_by" = some ((1:ℚ) * (7/10)) :=
  ⟨rfl, by decide,
   (c2_forward_reverse_edges [⟨2, "Bar", "bar", none, "x", "markdown", false⟩] 1 []
     "Bar" 1 ⟨2, "Bar", "bar", none, "x", "markdown", false⟩ rfl (by decide)).1,
   (c2_forward_reverse_edges [⟨2, "Bar", "bar", none, "x", "markdown", false⟩] 1 []
     "Bar" 1 ⟨2, "Bar", "bar", none, "x", "markdown", false⟩ rfl (by decide)).2.1⟩

/-- C6: during the cross-reference step, a mention that resolves to no topic
    is skipped, a mention that resolves to the written topic itself is
    skipped, no mention application ever introduces an edge with source equal
    to target, and whenever the detector succeeds the whole write succeeds. -/
theorem c6_skip_unresolvable_and_self :
    (∀ (topics : List TopicRow) (topicId : Nat) (rels : List RelRow) (nm : String) (c : ℚ),
      topics.find? (fun t => t.slug == topicToSlug nm) = none →
      applyMention topics topicId rels (nm, c) = rels) ∧
    (∀ (topics : List TopicRow) (topicId : Nat) (rels : List RelRow) (nm : String) (c : ℚ)
      (M : TopicRow),
      topics.find? (fun t => t.slug == topicToSlug nm) = some M → M.id = topicId →
      applyMention topics topicId rels (nm, c) = rels) ∧
    (∀ (topics : List TopicRow) (tid : Nat) (rels : List RelRow) (p : String × ℚ)
      (e : RelRow),
      e ∈ applyMention topics tid rels p → e.source_id = e.target_id → e ∈ rels) ∧
    (∀ (db : VaultDb) (topic content contentType : String) (category : Option String)
      (user : String) (comment : Option String) (ms : List (String × ℚ)),
      findCrossReferences content
        ((applyWrite db topic content contentType category user comment).1.topics.map
          (·.name)) = .ok ms →
      update db topic content contentType category user comment true =
        .ok { (applyWrite db topic content contentType category user comment).1 with
          relations := ms.foldl
            (applyMention
              (applyWrite db topic content contentType category user comment).1.topics
              (applyWrite db topic content contentType category user comment).2)
            (applyWrite db topic content contentType category user comment).1.relations }) :=
  ⟨fun topics topicId rels nm c h =>
     applyMention_unresolved topics topicId rels nm c h,
   fun topics topicId rels nm c M h1 h2 =>
     applyMention_self topics topicId rels nm c M h1 h2,
   fun topics tid rels p e he hs =>
     applyMention_no_self_loop topics tid rels p e he hs,
   fun db topic content contentType category user comment ms h =>
     update_detect_ok db topic content contentType category user comment ms h⟩

/-- C6 witness: an unresolvable mention, a self-resolving mention, a
    pre-existing self-loop surviving a mention application, and a successful
    write on the empty database. -/
theorem c6_skip_unresolvable_and_self_witness :
    applyMention [] 5 [] ("X", 1) = [] ∧
    applyMention [⟨7, "Foo", "foo", none, "c", "markdown", false⟩] 7 [] ("Foo", 1) = [] ∧
    (⟨3, 3, "references", (1:ℚ)⟩ : RelRow) ∈ [(⟨3, 3, "references", (1:ℚ)⟩ : RelRow)] ∧
    update emptyDb "A" "hello" "markdown" none "system" none true =
      .ok { (applyWrite emptyDb "A" "hello" "markdown" none "system" none).1 with
        relations := List.foldl
          (applyMention
            (applyWrite emptyDb "A" "hello" "markdown" none "system" none).1.topics
            (applyWrite emptyDb "A" "hello" "markdown" none "system" none).2)
          (applyWrite emptyDb "A" "hello" "markdown" none "system" none).1.relations [] } :=
  ⟨c6_skip_unresolvable_and_self.1 [] 5 [] "X" 1 rfl,
   c6_skip_unresolvable_and_self.2.1 [⟨7, "Foo", "foo", none, "c", "markdown", false⟩] 7 []
     "Foo" 1 ⟨7, "Foo", "foo", none, "c", "markdown", false⟩ rfl rfl,
   c6_skip_unresolvable_and_self.2.2.1 [⟨2, "Bar", "bar", none, "c", "markdown", false⟩] 1
     [⟨3, 3, "references", (1:ℚ)⟩] ("Bar", 1) ⟨3, 3, "references", (1:ℚ)⟩
     (List.mem_cons_self _ _) rfl,
   c6_skip_unresolvable_and_self.2.2.2 emptyDb "A" "hello" "markdown" none "system" none
     [] rfl⟩

/-- C7: a content write with detectReferences = false succeeds, returns
    exactly the content-write state, leaves the relation store unchanged,
    appends exactly one history row, and stores the new content on the
    written topic. -/
theorem c7_opt_out_leaves_relations (db : VaultDb) (topic content contentType : String)
    (category : Option String) (user : String) (comment : Option String)
    (hfresh : ∀ t ∈ db.topics, t.id < db.nextTopicId) :
    update db topic content contentType category user comment false =
      .ok (applyWrite db topic content contentType category user comment).1 ∧
    (applyWrite db topic content contentType category user comment).1.relations =
      db.relations ∧
    (applyWrite db topic content contentType category user comment).1.history.length =
      db.history.length + 1 ∧
    (((applyWrite db topic content contentType category user comment).1.topics.find?
        (fun t => t.id ==
          (applyWrite db topic content contentType category user comment).2)).map
      (·.content)) = some content :=
  ⟨rfl,
   applyWrite_relations db topic content contentType category user comment,
   applyWrite_history_len db topic content contentType category user comment,
   applyWrite_content db topic content contentType category user comment hfresh⟩

/-- C7 witness: the opt-out write on the empty database succeeds, leaves the
    (empty) relation store unchanged and appends one history row. -/
theorem c7_opt_out_leaves_relations_witness :
    update emptyDb "A" "hello" "markdown" none "system" none false =
      .ok (applyWrite emptyDb "A" "hello" "markdown" none "system" none).1 ∧
    (applyWrite emptyDb "A" "hello" "markdown" none "system" none).1.relations =
      emptyDb.relations ∧
    (applyWrite emptyDb "A" "hello" "markdown" none "system" none).1.history.length =
      emptyDb.history.length + 1 :=
  ⟨(c7_opt_out_leaves_relations emptyDb "A" "hello" "markdown" none "system" none
      (fun t ht => absurd ht (List.not_mem_nil t))).1,
   (c7_opt_out_leaves_relations emptyDb "A" "hello" "markdown" none "system" none
      (fun t ht => absurd ht (List.not_mem_nil t))).2.1,
   (c7_opt_out_leaves_relations emptyDb "A" "hello" "markdown" none "system" none
      (fun t ht => absurd ht (List.not_mem_nil t))).2.2.1⟩

/-- C10: the detector only ever records the confidences 0.7, 0.9 and 1.0;
    every edge a mention application adds is a references edge with strength
    in that set or a referenced_by edge with strength in 0.49, 0.63, 0.7; the
    update tool preserves the invariant that all stored strengths lie in
    [0, 1]; the manual relation tool preserves it and rejects any strength
    outside [0, 1]; and its schema default 0.5 lies in [0, 1]. -/
theorem c10_strengths_in_unit_interval :
    (∀ (content : String) (names : List String) (l : List (String × ℚ)),
      findCrossReferences content names = .ok l →
      ∀ p ∈ l, p.2 = 7/10 ∨ p.2 = 9/10 ∨ p.2 = 1) ∧
    (∀ (topics : List TopicRow) (tid : Nat) (rels : List RelRow) (nm : String) (c : ℚ)
      (e : RelRow), (c = 7/10 ∨ c = 9/10 ∨ c = 1) →
      e ∈ applyMention topics tid rels (nm, c) →
      e ∈ rels ∨
      (e.relationship_type = "references" ∧
        (e.relationship_strength = 7/10 ∨ e.relationship_strength = 9/10 ∨
          e.relationship_strength = 1)) ∨
      (e.relationship_type = "referenced_by" ∧
        (e.relationship_strength = 49/100 ∨ e.relationship_strength = 63/100 ∨
          e.relationship_strength = 7/10))) ∧
    (∀ (db : VaultDb) (topic content contentType : String) (category : Option String)
      (user : String) (comment : Option String) (det : Bool) (db' : VaultDb),
      EdgesOk db.relations →
      update db topic content contentType category user comment det = .ok db' →
      EdgesOk db'.relations) ∧
    (∀ (db : VaultDb) (st tt ty : String) (s : ℚ) (db' : VaultDb),
      EdgesOk db.relations → createRelationTool db st tt ty s = some db' →
      EdgesOk db'.relations) ∧
    (∀ (db : VaultDb) (st tt ty : String) (s : ℚ),
      ¬(0 ≤ s ∧ s ≤ 1) → createRelationTool db st tt ty s = none) ∧
    (0 ≤ defaultRelationStrength ∧ defaultRelationStrength ≤ 1) := by
  refine ⟨?_, ?_, ?_, ?_, ?_, ?_⟩
  · exact fun content names l h p hp => findCrossReferences_values content names l h p hp
  · intro topics tid rels nm c e hc he
    rcases mem_applyMention topics tid rels (nm, c) e he with he | ⟨ht, hs⟩ | ⟨ht, hs⟩
    · exact Or.inl he
    · refine Or.inr (Or.inl ⟨ht, ?_⟩)
      rw [hs]
      exact hc
    · refine Or.inr (Or.inr ⟨ht, ?_⟩)
      rw [hs]
      rcases hc with hc | hc | hc <;> rw [hc] <;> norm_num
  · intro db topic content contentType category user comment det db' hedges hok
    cases det with
    | false =>
      have h1 : update db topic content contentType category user comment false =
          .ok (applyWrite db topic content contentType category user comment).1 := rfl
      rw [h1] at hok
      have h2 := Except.ok.inj hok
      rw [← h2, applyWrite_relations]
      exact hedges
    | true =>
      cases hdet : findCrossReferences content
          ((applyWrite db topic content contentType category user comment).1.topics.map
            (·.name)) with
      | error e =>
        have hupd : update db topic content contentType category user comment true =
            .error e := by
          simp only [update, if_true, hdet]
        rw [hupd] at hok
        exact absurd hok (by simp)
      | ok ms =>
        have hupd := update_detect_ok db topic content contentType category user comment
          ms hdet
        rw [hupd] at hok
        have h2 := Except.ok.inj hok
        rw [← h2]
        refine foldl_applyMention_edges _ _ ms _ ?_ ?_
        · exact fun p hp => findCrossReferences_values _ _ _ hdet p hp
        · rw [applyWrite_relations]
          exact hedges
  · intro db st tt ty s db' hedges hok
    unfold createRelationTool at hok
    by_cases hg : 0 ≤ s ∧ s ≤ 1
    · rw [if_pos hg] at hok
      have h2 := Option.some.inj hok
      rw [← h2]
      unfold createRelation
      cases hf1 : db.topics.find? (fun t => t.slug == topicToSlug st) with
      | none =>
        simp only [hf1]
        exact hedges
      | some srow =>
        simp only [hf1]
        cases hf2 : db.topics.find? (fun t => t.slug == topicToSlug tt) with
        | none =>
          simp only [hf2]
          exact hedges
        | some trow =>
          simp only [hf2]
          exact upsertEdge_edges db.relations srow.id trow.id ty s hedges hg.1 hg.2
    · rw [if_neg hg] at hok
      exact absurd hok (by simp)
  · intro db st tt ty s hg
    unfold createRelationTool
    rw [if_neg hg]
  · constructor <;> norm_num [defaultRelationStrength]

/-- C10 witness: the invariant machinery at concrete inputs — a detector run,
    a mention application, an update on the empty database, an accepted and a
    rejected manual relation strength. -/
theorem c10_strengths_in_unit_interval_witness :
    (((9:ℚ)/10 = 7/10 ∨ (9:ℚ)/10 = 9/10 ∨ (9:ℚ)/10 = 1)) ∧
    ((⟨1, 2, "references", (9:ℚ)/10⟩ : RelRow) ∈ ([] : List RelRow) ∨
      ((⟨1, 2, "references", (9:ℚ)/10⟩ : RelRow).relationship_type = "references" ∧
        ((⟨1, 2, "references", (9:ℚ)/10⟩ : RelRow).relationship_strength = 7/10 ∨
         (⟨1, 2, "references", (9:ℚ)/10⟩ : RelRow).relationship_strength = 9/10 ∨
         (⟨1, 2, "references", (9:ℚ)/10⟩ : RelRow).relationship_strength = 1)) ∨
      ((⟨1, 2, "references", (9:ℚ)/10⟩ : RelRow).relationship_type = "referenced_by" ∧
        ((⟨1, 2, "references", (9:ℚ)/10⟩ : RelRow).relationship_strength = 49/100 ∨
         (⟨1, 2, "references", (9:ℚ)/10⟩ : RelRow).relationship_strength = 63/100 ∨
         (⟨1, 2, "references", (9:ℚ)/10⟩ : RelRow).relationship_strength = 7/10))) ∧
    EdgesOk ({ (applyWrite emptyDb "A" "hello" "markdown" none "system" none).1 with
      relations := List.foldl
        (applyMention
          (applyWrite emptyDb "A" "hello" "markdown" none "system" none).1.topics
          (applyWrite emptyDb "A" "hello" "markdown" none "system" none).2)
        (applyWrite emptyDb "A" "hello" "markdown" none "system" none).1.relations
        [] } : VaultDb).relations ∧
    EdgesOk emptyDb.relations ∧
    createRelationTool emptyDb "A" "B" "similar" 2 = none := by
  refine ⟨?_, ?_, ?_, ?_, ?_⟩
  · exact c10_strengths_in_unit_interval.1 "foo" ["Foo"] [("Foo", 9/10)] rfl
      ("Foo", 9/10) (List.mem_cons_self _ _)
  · exact c10_strengths_in_unit_interval.2.1
      [⟨2, "Bar", "bar", none, "x", "markdown", false⟩] 1 [] "Bar" (9/10)
      ⟨1, 2, "references", (9:ℚ)/10⟩ (Or.inr (Or.inl rfl))
      (List.mem_cons_self _ _)
  · exact c10_strengths_in_unit_interval.2.2.1 emptyDb "A" "hello" "markdown" none
      "system" none true _ (fun e he => absurd he (List.not_mem_nil e))
      (update_detect_ok emptyDb "A" "hello" "markdown" none "system" none [] rfl)
  · exact fun e he => absurd he (List.not_mem_nil e)
  · exact c10_strengths_in_unit_interval.2.2.2.2.1 emptyDb "A" "B" "similar" 2
      (by norm_num)

end KnowledgeVault
